import Mathlib

/-!
Verification of the remix-nodejs-http2-adapter content-negotiation and
static-serving logic (`src/index.js`), as a shallow embedding in Lean 4.

Conventions used throughout:

* JS strings are Lean `String`s; header scanning follows the code's regex
  `/(?<encoding>(\w+|\*))(;q=(?<weight>(0|1)(\.\d{0,3})?))?/gm` applied with
  `String.prototype.matchAll`, embedded below as an explicit scanner
  (`matchAllEncodings`).  All characters relevant to the regex (`\w`, `*`,
  `;q=`, digits, `.`) are ASCII, so scanning the list of code points is
  faithful to JS code-unit scanning.
* JS number weights: every weight the regex can capture has the decimal form
  `(0|1)(\.\d{0,3})?`, i.e. it is k/1000 with 0 ≤ k ≤ 1999.  Such values are
  represented here exactly as the integer k (thousandths).  This is faithful:
  distinct k below 2000 map to distinct IEEE doubles, the map is monotone, and
  k = 0 exactly when the double equals 0, so the code's `weight != 0` test,
  `==` test and `a.weight - b.weight` comparator are all mirrored exactly.
* `Array.prototype.sort` (stable since ES2019) with a consistent comparator
  `cmp` returns the unique stable reordering that is sorted with respect to
  `cmp a b ≤ 0`.  It is embedded as a stable insertion sort over the boolean
  relation `encodingLe a b`, which holds exactly when the code's comparator
  returns a value ≤ 0.
-/

/-- JS `\w` without the unicode flag: `[A-Za-z0-9_]`. -/
def isWordChar (c : Char) : Bool :=
  c.isAlpha || c.isDigit || c == '_'

/-- Greedy `\w+` continuation: longest run of word characters, and the rest. -/
def takeWordChars : List Char → List Char × List Char
  | [] => ([], [])
  | c :: cs =>
    if isWordChar c then
      let p := takeWordChars cs
      (c :: p.1, p.2)
    else ([], c :: cs)

/-- Greedy `\d{0,n}`: up to `n` leading digits, and the rest. -/
def takeFracDigits : Nat → List Char → List Char × List Char
  | 0, cs => ([], cs)
  | _ + 1, [] => ([], [])
  | n + 1, c :: cs =>
    if c.isDigit then
      let p := takeFracDigits n cs
      (c :: p.1, p.2)
    else ([], c :: cs)

/-- The optional quality group `(;q=(?<weight>(0|1)(\.\d{0,3})?))?` of the
code's regex, tried at the current position.  Returns the captured `weight`
group (when the group participates) and the remaining input; when the group
cannot match it matches the empty string, leaving the input unchanged. -/
def tryQualityGroup (cs : List Char) : Option (List Char) × List Char :=
  match cs with
  | c1 :: c2 :: c3 :: c4 :: rest =>
    if c1 == ';' && c2 == 'q' && c3 == '=' && (c4 == '0' || c4 == '1') then
      match rest with
      | c5 :: rest2 =>
        if c5 == '.' then
          let p := takeFracDigits 3 rest2
          (some (c4 :: c5 :: p.1), p.2)
        else (some [c4], rest)
      | [] => (some [c4], [])
    else (none, cs)
  | _ => (none, cs)

/-- One raw regex match: the `encoding` group and the optional `weight` group
(as captured strings), mirroring `match.groups` in the code. -/
structure RawMatch where
  encoding : String
  weight? : Option String
  deriving Repr, DecidableEq

/-- Embeds `encoding.matchAll(encodingRegex)`: scan left to right, at each
position try `(\w+|\*)` (greedy word run, or a literal `*`) followed by the
optional quality group; on success emit the match and resume after it, on
failure advance one character.  Every match consumes at least one character,
so fuel equal to the input length (supplied by `matchAllEncodings`) is never
exhausted; `matchAllEncodingsAux_fuel` below proves fuel irrelevance. -/
def matchAllEncodingsAux : Nat → List Char → List RawMatch
  | 0, _ => []
  | _ + 1, [] => []
  | fuel + 1, c :: cs =>
    if isWordChar c then
      let p := takeWordChars cs
      let q := tryQualityGroup p.2
      ⟨String.mk (c :: p.1), q.1.map String.mk⟩ :: matchAllEncodingsAux fuel q.2
    else if c == '*' then
      let q := tryQualityGroup cs
      ⟨"*", q.1.map String.mk⟩ :: matchAllEncodingsAux fuel q.2
    else matchAllEncodingsAux fuel cs

def matchAllEncodings (cs : List Char) : List RawMatch :=
  matchAllEncodingsAux cs.length cs

/-- Numeric value of one captured digit. -/
def digitVal (c : Char) : Nat := c.toNat - '0'.toNat

/-- Value of the fractional digits of a captured weight, in thousandths.
The capture has at most three digits; extra positions contribute nothing. -/
def fracValue : List Char → Nat
  | [] => 0
  | [a] => digitVal a * 100
  | [a, b] => digitVal a * 100 + digitVal b * 10
  | a :: b :: c :: _ => digitVal a * 100 + digitVal b * 10 + digitVal c

/-- JS `Number(w)` for a string `w` captured by the weight group
`(0|1)(\.\d{0,3})?`, as exact thousandths: `Number("1.25") = 1.25 ↦ 1250`. -/
def parseWeightThousandths (s : String) : Nat :=
  match s.data with
  | [] => 0
  | d :: rest =>
    let frac := match rest with
      | _ :: fs => fs
      | [] => []
    digitVal d * 1000 + fracValue frac

/-- One entry of the negotiated list: `{encoding, weight}` from the code,
with `weight` in exact thousandths of the JS float. -/
structure EncodingEntry where
  encoding : String
  weight : Nat
  deriving Repr, DecidableEq

/-- `preferredEncodingOrder` from `src/index.js`. -/
def preferredEncodingOrder : List String :=
  ["*", "br", "zstd", "gzip", "deflate", "compress", "identity"]

/-- JS `preferredEncodingOrder.indexOf(s)`: index when present, `-1` when
absent. -/
def preferredIndexOf (s : String) : Int :=
  match preferredEncodingOrder.findIdx? (fun e => e == s) with
  | some i => (i : Int)
  | none => -1

/-- The code's sort comparator, as the relation "comparator result ≤ 0":
equal weights compare by `indexOf` difference, unequal weights by
`a.weight - b.weight` (ascending weight). -/
def encodingLe (a b : EncodingEntry) : Bool :=
  if a.weight == b.weight then
    preferredIndexOf a.encoding ≤ preferredIndexOf b.encoding
  else a.weight < b.weight

/-- Stable insertion step for the embedding of `Array.prototype.sort`. -/
def stableInsert (le : α → α → Bool) (a : α) : List α → List α
  | [] => [a]
  | b :: l => if le a b then a :: b :: l else b :: stableInsert le a l

/-- Stable sort: the result of ES2019+ `Array.prototype.sort` under a
consistent comparator `cmp`, taking `le a b = (cmp a b ≤ 0)`. -/
def stableSort (le : α → α → Bool) : List α → List α
  | [] => []
  | b :: l => stableInsert le b (stableSort le l)

/-- `parseEncoding` from `src/index.js`.  Per match: the captured weight is
converted with `Number(match.groups["weight"] ?? 0)` — an absent capture
defaults to numeric 0 — entries with weight ≠ 0 are pushed, and the list is
sorted with the comparator embedded by `encodingLe`.  (The code's
`Number.isNaN(weight) ? 1 : weight` guard is unreachable: every string the
weight group can capture parses as a number, so `weight` is never NaN.
Likewise `match.groups == null || match.groups["encoding"] == null` never
holds, since the `encoding` group participates in every match.) -/
def parseEncoding (encoding : String) : List EncodingEntry :=
  let encodings := (matchAllEncodings encoding.data).filterMap fun m =>
    let weight : Nat := match m.weight? with
      | some w => parseWeightThousandths w
      | none => 0
    if weight ≠ 0 then some ⟨m.encoding, weight⟩ else none
  stableSort encodingLe encodings

example : parseEncoding "*" = [] := by decide

example : parseEncoding "gzip;q=0" = [] := by decide

example : parseEncoding "zstd;q=0.5" = [⟨"zstd", 500⟩] := by decide

/-- JS `s.startsWith(pre)`: `pre` is a prefix of `s`. -/
def jsStartsWith (s pre : String) : Bool :=
  pre.data.isPrefixOf s.data

/-- `encodingExtensionMap` from `src/index.js`, as the lookup function of the
literal `Map`. -/
def encodingExtensionMap : String → Option String
  | "br" => some "br"
  | "zstd" => some "zst"
  | "gzip" => some "gz"
  | "deflate" => some "gz"
  | "compress" => some "Z"
  | _ => none

/-- The static `Map<string, string>` from URL path to absolute file path.
Keys are unique (a `Map` overwrites on re-insertion); `mapGet` is `Map.get`. -/
def mapGet (m : List (String × String)) (k : String) : Option String :=
  (m.find? (fun p => p.1 == k)).map (·.2)

/-- Node `path.extname(pathname).slice(1)`: the extension of the last path
segment without its dot, `""` when the segment has no extension (no dot, or
only a leading dot as in `.bashrc`, or a bare trailing dot). -/
def extnameWithoutDot (pathname : String) : String :=
  let revBase := pathname.data.reverse.takeWhile (fun c => !(c == '/'))
  let revExt := revBase.takeWhile (fun c => !(c == '.'))
  if revExt.length == revBase.length || revExt.length + 1 == revBase.length then ""
  else String.mk revExt.reverse

/-- The `for (const requestedEncoding of parseEncoding(...))` loop of the
static handler: starting from `encoding = "identity"` and the base file, take
the first negotiated coding that both has a known extension and whose suffixed
sibling is in the map. -/
def selectVariant (staticMap : List (String × String)) (pathname : String)
    (basePath : String) : List EncodingEntry → String × String
  | [] => ("identity", basePath)
  | e :: rest =>
    match encodingExtensionMap e.encoding with
    | some ext =>
      match mapGet staticMap (pathname ++ "." ++ ext) with
      | some foundPath => (e.encoding, foundPath)
      | none => selectVariant staticMap pathname basePath rest
    | none => selectVariant staticMap pathname basePath rest

/-- Head of the static response the handler writes: status and the three
headers of `response.writeHead(200, {...})`, plus the file streamed. -/
structure StaticResponseHead where
  status : Nat
  cacheControl : String
  contentType : String
  contentEncoding : String
  filePath : String
  deriving Repr, DecidableEq

/-- The per-request decision of `buildDefaultStaticHandler`'s returned
closure, up to the point where bytes are streamed: `none` models `return
false` (path not in the map; the request falls through to the dynamic
bridge), `some` carries everything `writeHead` and the file stream use.
`extensionMap` abstracts the mime-db table built at startup; `pathname` is
the request URL's pathname; a missing `accept-encoding` header defaults to
`"*"` via `?? "*"`.  The code's `assert.ok(filePath != null)` holds by
construction here: the map lookup already succeeded. -/
def staticRespond (staticMap : List (String × String)) (publicPath : String)
    (extensionMap : String → Option String) (pathname : String)
    (acceptEncoding? : Option String) : Option StaticResponseHead :=
  match mapGet staticMap pathname with
  | none => none
  | some basePath =>
    let cacheValue := if jsStartsWith pathname publicPath then
        s!"max-age={60 * 60 * 24 * 365}, immutable"
      else s!"max-age={60 * 60 * 6}"
    let acceptEncoding := acceptEncoding?.getD "*"
    let sel := selectVariant staticMap pathname basePath (parseEncoding acceptEncoding)
    let contentType := (extensionMap (extnameWithoutDot pathname)).getD "application/octet-stream"
    some { status := 200
           cacheControl := s!"public, {cacheValue}"
           contentType := contentType
           contentEncoding := sel.1
           filePath := sel.2 }

/-- `const [encodingResult] = parseEncoding(headers["accept-encoding"] ?? "*")`
in the dynamic bridge. -/
def negotiatedEncoding (acceptEncoding? : Option String) : Option EncodingEntry :=
  (parseEncoding (acceptEncoding?.getD "*")).head?

/-- The header object passed to `serverResponse.writeHead` by the dynamic
bridge, as a key → value lookup.  The object literal lists `cache-control:
"no-cache"` and the negotiated `content-encoding` first and then spreads
`Object.fromEntries(response.headers)`, so a handler-supplied header with the
same key overwrites the literal one; `Object.fromEntries` itself keeps the
last entry per key (a `Headers` iteration yields each key once). -/
def dynamicWrittenHeader (encodingResult? : Option EncodingEntry)
    (responseHeaders : List (String × String)) (key : String) : Option String :=
  match (responseHeaders.reverse.find? (fun p => p.1 == key)).map (·.2) with
  | some v => some v
  | none =>
    if key == "cache-control" then some "no-cache"
    else if key == "content-encoding" then
      some ((encodingResult?.map (·.encoding)).getD "identity")
    else none

/-- The body transform the dynamic bridge builds in its `switch` on
`encodingResult?.encoding`. -/
inductive Compression
  | brotliText
  | gzipStream
  | deflateStream
  | passThrough
  deriving Repr, DecidableEq

def selectCompression : Option String → Compression
  | some "br" => .brotliText
  | some "gzip" => .gzipStream
  | some "deflate" => .deflateStream
  | _ => .passThrough

/-- Body of the abstract `Request` the bridge builds: `null` for GET and HEAD
(the transport stream is never attached), otherwise the transport body as a
lazily-readable stream. -/
def abstractRequestBody (method : String) (transportBody : β) : Option β :=
  if method == "GET" || method == "HEAD" then none
  else some transportBody

/-- A thrown JS value as the static handler's `catch` inspects it:
`isError` models `error instanceof Error`, `code?` models
`"code" in error ? error.code : absent`. -/
structure JsError where
  isError : Bool
  code? : Option String
  deriving Repr, DecidableEq

/-- The `catch` clause's test: `error instanceof Error && "code" in error &&
error.code == "ABORT_ERR"`.  Node's `stream.pipeline` rejects with an
`AbortError` carrying code `ABORT_ERR` exactly when the passed signal fires,
i.e. when the client disconnect tripped the request's `AbortController`. -/
def isAbortError (e : JsError) : Bool :=
  e.isError && e.code? == some "ABORT_ERR"

/-- The `try { await pipeline(...) } catch ... return true` tail of the static
handler, as a function of the pipeline's outcome.  `.ok (some true)` is the
normal `return true`; `.ok none` is the bare `return` taken for an abort
(the error is swallowed); `.error e` is `throw error`. -/
def staticStreamFinish : Except JsError Unit → Except JsError (Option Bool)
  | .ok _ => .ok (some true)
  | .error e => if isAbortError e then .ok none else .error e

/-! ### Helper lemmas about the scanner and the sort -/

theorem takeWordChars_snd_length (cs : List Char) :
    (takeWordChars cs).2.length ≤ cs.length := by
  induction cs with
  | nil => simp [takeWordChars]
  | cons c cs ih =>
    simp only [takeWordChars]
    split
    · simpa using Nat.le_succ_of_le ih
    · simp

theorem takeFracDigits_snd_length (n : Nat) (cs : List Char) :
    (takeFracDigits n cs).2.length ≤ cs.length := by
  induction n generalizing cs with
  | zero => simp [takeFracDigits]
  | succ n ih =>
    cases cs with
    | nil => simp [takeFracDigits]
    | cons c cs =>
      simp only [takeFracDigits]
      split
      · simpa using Nat.le_succ_of_le (ih cs)
      · simp

theorem tryQualityGroup_snd_length (cs : List Char) :
    (tryQualityGroup cs).2.length ≤ cs.length := by
  unfold tryQualityGroup
  split
  · next c1 c2 c3 c4 rest =>
    split
    · split
      · next c5 rest2 =>
        split
        · have := takeFracDigits_snd_length 3 rest2
          simp only [List.length_cons]
          omega
        · simp only [List.length_cons]
          omega
      · simp
    · exact Nat.le_refl _
  · exact Nat.le_refl _

theorem matchAllEncodingsAux_fuel (f g : Nat) (cs : List Char)
    (hf : cs.length ≤ f) (hg : cs.length ≤ g) :
    matchAllEncodingsAux f cs = matchAllEncodingsAux g cs := by
  induction f generalizing g cs with
  | zero =>
    have : cs = [] := List.length_eq_zero.mp (Nat.le_zero.mp hf)
    subst this
    cases g <;> rfl
  | succ f ih =>
    cases cs with
    | nil => cases g <;> rfl
    | cons c cs =>
      cases g with
      | zero => exact absurd hg (by simp)
      | succ g =>
        simp only [matchAllEncodingsAux]
        have hc : cs.length ≤ f := by simpa using hf
        have hc' : cs.length ≤ g := by simpa using hg
        split
        · have h1 : (takeWordChars cs).2.length ≤ cs.length :=
            takeWordChars_snd_length cs
          have h2 : (tryQualityGroup (takeWordChars cs).2).2.length ≤
              (takeWordChars cs).2.length :=
            tryQualityGroup_snd_length _
          rw [ih g (tryQualityGroup (takeWordChars cs).2).2 (by omega) (by omega)]
        · split
          · have h2 : (tryQualityGroup cs).2.length ≤ cs.length :=
              tryQualityGroup_snd_length cs
            rw [ih g (tryQualityGroup cs).2 (by omega) (by omega)]
          · exact ih g cs hc hc'

theorem mem_stableInsert (le : α → α → Bool) (a x : α) (l : List α) :
    x ∈ stableInsert le a l ↔ x = a ∨ x ∈ l := by
  induction l with
  | nil => simp [stableInsert]
  | cons b l ih =>
    simp only [stableInsert]
    split
    · simp [or_comm, or_assoc, or_left_comm]
    · simp only [List.mem_cons, ih]
      tauto

theorem mem_stableSort (le : α → α → Bool) (x : α) (l : List α) :
    x ∈ stableSort le l ↔ x ∈ l := by
  induction l with
  | nil => simp [stableSort]
  | cons b l ih =>
    simp only [stableSort, mem_stableInsert, ih, List.mem_cons]

theorem digitVal_le_of_isDigit (c : Char) (h : c.isDigit = true) :
    digitVal c ≤ 9 := by
  simp only [Char.isDigit, Bool.and_eq_true, decide_eq_true_eq] at h
  have h3 : c.val.toNat ≤ 57 := UInt32.toNat_le_of_le (by norm_num) h.2
  have h0 : ('0' : Char).toNat = 48 := rfl
  simp only [digitVal, Char.toNat] at h0 ⊢
  omega

theorem takeFracDigits_fst_digits (n : Nat) (cs : List Char) (c : Char)
    (h : c ∈ (takeFracDigits n cs).1) : c.isDigit = true := by
  induction n generalizing cs with
  | zero => simp [takeFracDigits] at h
  | succ n ih =>
    cases cs with
    | nil => simp [takeFracDigits] at h
    | cons d cs =>
      simp only [takeFracDigits] at h
      split at h
      · next hd =>
        simp only [List.mem_cons] at h
        rcases h with rfl | h
        · exact hd
        · exact ih cs h
      · simp at h

theorem fracValue_le (l : List Char) (h : ∀ c ∈ l, c.isDigit = true) :
    fracValue l ≤ 999 := by
  match l with
  | [] => simp [fracValue]
  | [a] =>
    have := digitVal_le_of_isDigit a (h a (by simp))
    simp only [fracValue]
    omega
  | [a, b] =>
    have ha := digitVal_le_of_isDigit a (h a (by simp))
    have hb := digitVal_le_of_isDigit b (h b (by simp))
    simp only [fracValue]
    omega
  | a :: b :: c :: rest =>
    have ha := digitVal_le_of_isDigit a (h a (by simp))
    have hb := digitVal_le_of_isDigit b (h b (by simp))
    have hc := digitVal_le_of_isDigit c (h c (by simp))
    simp only [fracValue]
    omega

theorem tryQualityGroup_weight_le (cs q r : List Char)
    (h : tryQualityGroup cs = (some q, r)) :
    parseWeightThousandths (String.mk q) ≤ 1999 := by
  unfold tryQualityGroup at h
  split at h
  · next c1 c2 c3 c4 rest =>
    split at h
    · next hcond =>
      simp only [Bool.and_eq_true, Bool.or_eq_true, beq_iff_eq] at hcond
      have hc4 : digitVal c4 ≤ 1 := by
        rcases hcond.2 with rfl | rfl <;> simp [digitVal]
      split at h
      · next c5 rest2 =>
        split at h
        · have hq : q = c4 :: c5 :: (takeFracDigits 3 rest2).1 :=
            (Prod.mk.injEq _ _ _ _ ▸ h).1 |> Option.some.inj |> Eq.symm
          have hfrac : fracValue (takeFracDigits 3 rest2).1 ≤ 999 :=
            fracValue_le _ (fun c hc => takeFracDigits_fst_digits 3 rest2 c hc)
          subst hq
          simp only [parseWeightThousandths]
          omega
        · have hq : q = [c4] :=
            (Prod.mk.injEq _ _ _ _ ▸ h).1 |> Option.some.inj |> Eq.symm
          subst hq
          simp only [parseWeightThousandths, fracValue]
          omega
      · have hq : q = [c4] :=
          (Prod.mk.injEq _ _ _ _ ▸ h).1 |> Option.some.inj |> Eq.symm
        subst hq
        simp only [parseWeightThousandths, fracValue]
        omega
    · exact absurd ((Prod.mk.injEq _ _ _ _ ▸ h).1) (by simp)
  · exact absurd ((Prod.mk.injEq _ _ _ _ ▸ h).1) (by simp)

theorem matchAllEncodingsAux_weight_le (f : Nat) (cs : List Char)
    (m : RawMatch) (hm : m ∈ matchAllEncodingsAux f cs)
    (w : String) (hw : m.weight? = some w) :
    parseWeightThousandths w ≤ 1999 := by
  induction f generalizing cs with
  | zero => simp [matchAllEncodingsAux] at hm
  | succ f ih =>
    cases cs with
    | nil => simp [matchAllEncodingsAux] at hm
    | cons c cs =>
      simp only [matchAllEncodingsAux] at hm
      split at hm
      · simp only [List.mem_cons] at hm
        rcases hm with rfl | hm
        · simp only at hw
          cases hq : (tryQualityGroup (takeWordChars cs).2).1 with
          | none => rw [hq] at hw; simp at hw
          | some qd =>
            rw [hq] at hw
            simp only [Option.map_some'] at hw
            cases hw
            exact tryQualityGroup_weight_le (takeWordChars cs).2 qd
              (tryQualityGroup (takeWordChars cs).2).2 (by rw [← hq])
        · exact ih _ hm
      · split at hm
        · simp only [List.mem_cons] at hm
          rcases hm with rfl | hm
          · simp only at hw
            cases hq : (tryQualityGroup cs).1 with
            | none => rw [hq] at hw; simp at hw
            | some qd =>
              rw [hq] at hw
              simp only [Option.map_some'] at hw
              cases hw
              exact tryQualityGroup_weight_le cs qd (tryQualityGroup cs).2
                (by rw [← hq])
          · exact ih _ hm
        · exact ih _ hm

/-! ### Claim theorems -/

/-- C1 (code bug): the claim says `parseEncoding` sorts primarily by
descending weight, with codings absent from the fixed preference list sorting
after all listed ones on ties.  The code's comparator is `a.weight - b.weight`
— ascending weight — and uses `indexOf`, whose not-found value `-1` sorts
unlisted codings before all listed ones on ties.  Concretely: for
`"br;q=0.5, gzip;q=0.9"` the code returns `br` (weight 0.5) before `gzip`
(weight 0.9) instead of the claimed descending order, and for
`"foo;q=0.5, br;q=0.5"` the unlisted coding `foo` sorts before `br` instead
of after it. -/
theorem parseEncoding_sortsAscending_bug :
    parseEncoding "br;q=0.5, gzip;q=0.9" = [⟨"br", 500⟩, ⟨"gzip", 900⟩] ∧
      parseEncoding "br;q=0.5, gzip;q=0.9" ≠ [⟨"gzip", 900⟩, ⟨"br", 500⟩] ∧
      parseEncoding "foo;q=0.5, br;q=0.5" = [⟨"foo", 500⟩, ⟨"br", 500⟩] :=
  ⟨by decide, by decide, by decide⟩

/-- C2 (code bug): the claim says a coding with no parsable `;q=` quality is
kept with weight 1.  The code computes `Number(match.groups["weight"] ?? 0)`:
an absent capture defaults the weight to 0, so the `weight != 0` filter drops
the coding entirely.  `"gzip"` — and the typical browser header
`"gzip, deflate, br"` — negotiate to the empty list. -/
theorem parseEncoding_dropsMissingQuality_bug :
    parseEncoding "gzip" = [] ∧ parseEncoding "gzip, deflate, br" = [] :=
  ⟨by decide, by decide⟩

/-- C5: for every header value, no entry of weight 0 appears in the sequence
returned by `parseEncoding`: every returned entry has nonzero weight, so in
particular an entry whose quality was explicitly `;q=0` is never returned. -/
theorem parseEncoding_weight_ne_zero (s : String) (e : EncodingEntry)
    (h : e ∈ parseEncoding s) : e.weight ≠ 0 := by
  unfold parseEncoding at h
  rw [mem_stableSort] at h
  obtain ⟨m, _, heq⟩ := List.mem_filterMap.mp h
  dsimp only at heq
  split at heq
  · next hne =>
    cases heq
    exact hne
  · exact Option.noConfusion heq

theorem parseEncoding_weight_ne_zero_witness :
    (⟨"gzip", 500⟩ : EncodingEntry) ∈ parseEncoding "gzip;q=0.5" ∧
      (⟨"gzip", 500⟩ : EncodingEntry).weight ≠ 0 :=
  ⟨by decide, parseEncoding_weight_ne_zero "gzip;q=0.5" ⟨"gzip", 500⟩ (by decide)⟩

/-- C6 (counterexample): the claim says every entry's weight lies in [0, 1],
but the quality pattern `(0|1)(\.\d{0,3})?` also accepts numerals above 1:
`"gzip;q=1.5"` yields an entry of weight 1.5 (1500 thousandths). -/
theorem parseEncoding_weightAboveOne_counterexample :
    parseEncoding "gzip;q=1.5" = [⟨"gzip", 1500⟩] ∧
      ¬(∀ e ∈ parseEncoding "gzip;q=1.5", e.weight ≤ 1000) :=
  ⟨by decide, by decide⟩

/-- C6 (amended): for every header value, every entry in the sequence
returned by `parseEncoding` has a weight in [0, 1.999] — the largest numeral
the quality pattern `(0|1)(\.\d{0,3})?` accepts — rather than in [0, 1].
Weights are in exact thousandths, so the bound reads `≤ 1999`. -/
theorem parseEncoding_weight_le (s : String) (e : EncodingEntry)
    (h : e ∈ parseEncoding s) : e.weight ≤ 1999 := by
  unfold parseEncoding at h
  rw [mem_stableSort] at h
  obtain ⟨m, hm, heq⟩ := List.mem_filterMap.mp h
  dsimp only at heq
  split at heq
  · cases heq
    cases hw : m.weight? with
    | none => simp [hw]
    | some w =>
      simp only [hw]
      exact matchAllEncodingsAux_weight_le s.data.length s.data m hm w hw
  · exact Option.noConfusion heq

theorem parseEncoding_weight_le_witness :
    (⟨"gzip", 1500⟩ : EncodingEntry) ∈ parseEncoding "gzip;q=1.5" ∧
      (⟨"gzip", 1500⟩ : EncodingEntry).weight ≤ 1999 :=
  ⟨by decide, parseEncoding_weight_le "gzip;q=1.5" ⟨"gzip", 1500⟩ (by decide)⟩

/-- C3 (code bug): with `.br` and `.gz` siblings both indexed, the claim says
`Accept-Encoding: gzip` yields the `.gz` file with `content-encoding: gzip`,
and `Accept-Encoding: br;q=0.5, gzip;q=0.9` yields the `.gz` file.  In the
code, `"gzip"` parses to the empty preference list (weight defaults to 0), so
the base file is served with `content-encoding: identity`; and the ascending
sort ranks `br` (weight 0.5) first, so the second header is served the `.br`
file with `content-encoding: br`. -/
theorem staticRespond_gzip_bug :
    staticRespond [("/app.js", "F"), ("/app.js.br", "Fbr"), ("/app.js.gz", "Fgz")]
        "/build/" (fun _ => none) "/app.js" (some "gzip") =
      some { status := 200, cacheControl := "public, max-age=21600",
             contentType := "application/octet-stream",
             contentEncoding := "identity", filePath := "F" } ∧
    staticRespond [("/app.js", "F"), ("/app.js.br", "Fbr"), ("/app.js.gz", "Fgz")]
        "/build/" (fun _ => none) "/app.js" (some "br;q=0.5, gzip;q=0.9") =
      some { status := 200, cacheControl := "public, max-age=21600",
             contentType := "application/octet-stream",
             contentEncoding := "br", filePath := "Fbr" } :=
  ⟨by decide, by decide⟩

/-- C4 (code bug): the claim says the negotiated `content-encoding` always
overrides a handler-supplied one.  The `writeHead` object spreads
`Object.fromEntries(response.headers)` after the literal
`content-encoding` entry, so a handler-supplied `content-encoding` wins —
here the handler's `identity` is written even though negotiation picked
`gzip` and the body is piped through the gzip transform selected by the
`switch` on the negotiated coding. -/
theorem dynamicHeaders_contentEncoding_bug :
    negotiatedEncoding (some "gzip;q=0.5") = some ⟨"gzip", 500⟩ ∧
    dynamicWrittenHeader (negotiatedEncoding (some "gzip;q=0.5"))
        [("content-type", "text/html"), ("content-encoding", "identity")]
        "content-encoding" = some "identity" ∧
    selectCompression ((negotiatedEncoding (some "gzip;q=0.5")).map (·.encoding)) =
      .gzipStream :=
  ⟨by decide, by decide, by decide⟩

/-- C7: a static hit whose pathname starts with the build's public-path
prefix gets exactly `cache-control: public, max-age=31536000, immutable`;
any other static hit gets exactly `cache-control: public, max-age=21600`. -/
theorem staticRespond_cacheControl (staticMap : List (String × String))
    (publicPath : String) (extensionMap : String → Option String)
    (pathname : String) (accept? : Option String) (resp : StaticResponseHead)
    (h : staticRespond staticMap publicPath extensionMap pathname accept? = some resp) :
    (jsStartsWith pathname publicPath = true →
      resp.cacheControl = "public, max-age=31536000, immutable") ∧
    (jsStartsWith pathname publicPath = false →
      resp.cacheControl = "public, max-age=21600") := by
  unfold staticRespond at h
  split at h
  · exact Option.noConfusion h
  · cases h
    constructor
    · intro hs
      simp only [hs, if_true]
      rfl
    · intro hs
      simp only [hs, Bool.false_eq_true, if_false]
      rfl

theorem staticRespond_cacheControl_witness :
    staticRespond [("/build/a.js", "A")] "/build/" (fun _ => none) "/build/a.js" none =
      some { status := 200, cacheControl := "public, max-age=31536000, immutable",
             contentType := "application/octet-stream",
             contentEncoding := "identity", filePath := "A" } ∧
    jsStartsWith "/build/a.js" "/build/" = true ∧
    ({ status := 200, cacheControl := "public, max-age=31536000, immutable",
       contentType := "application/octet-stream",
       contentEncoding := "identity",
       filePath := "A" } : StaticResponseHead).cacheControl =
      "public, max-age=31536000, immutable" :=
  ⟨by decide, by decide,
    (staticRespond_cacheControl [("/build/a.js", "A")] "/build/" (fun _ => none)
        "/build/a.js" none
        { status := 200, cacheControl := "public, max-age=31536000, immutable",
          contentType := "application/octet-stream",
          contentEncoding := "identity", filePath := "A" }
        (by decide)).1 (by decide)⟩

/-- C8: for method GET or HEAD the abstract request's body is `null` — the
transport body is never attached, whatever data the transport delivered. -/
theorem abstractRequestBody_getHead (β : Type) (method : String) (b : β)
    (h : method = "GET" ∨ method = "HEAD") :
    abstractRequestBody method b = none := by
  rcases h with rfl | rfl <;> rfl

theorem abstractRequestBody_getHead_witness :
    ("GET" = "GET" ∨ "GET" = "HEAD") ∧
      abstractRequestBody "GET" ([1, 2, 3] : List Nat) = none :=
  ⟨Or.inl rfl, abstractRequestBody_getHead (List Nat) "GET" [1, 2, 3] (Or.inl rfl)⟩

/-- C9: a pipeline failure whose error is the cancellation abort (`Error`
with code `ABORT_ERR`, which Node's `pipeline` throws when the client
disconnect trips the signal) is swallowed — the static responder returns
without throwing — while any other pipeline failure is re-thrown
unchanged. -/
theorem staticStreamFinish_abortPolicy (e : JsError) :
    (isAbortError e = true → staticStreamFinish (.error e) = .ok none) ∧
    (isAbortError e = false → staticStreamFinish (.error e) = .error e) := by
  constructor <;> intro h <;> simp [staticStreamFinish, h]

theorem staticStreamFinish_abortPolicy_witness :
    staticStreamFinish (.error ⟨true, some "ABORT_ERR"⟩) = .ok none ∧
    staticStreamFinish (.error ⟨true, some "ENOENT"⟩) =
      .error ⟨true, some "ENOENT"⟩ :=
  ⟨(staticStreamFinish_abortPolicy ⟨true, some "ABORT_ERR"⟩).1 (by decide),
   (staticStreamFinish_abortPolicy ⟨true, some "ENOENT"⟩).2 (by decide)⟩

theorem selectVariant_skipUnknown (staticMap : List (String × String))
    (pathname basePath : String) (l1 : List EncodingEntry)
    (hnone : ∀ x ∈ l1, encodingExtensionMap x.encoding = none)
    (l2 : List EncodingEntry) :
    selectVariant staticMap pathname basePath (l1 ++ l2) =
      selectVariant staticMap pathname basePath l2 := by
  induction l1 with
  | nil => rfl
  | cons x l1 ih =>
    simp only [List.cons_append, selectVariant]
    rw [hnone x (by simp)]
    exact ih (fun y hy => hnone y (by simp [hy]))

/-- C10: the suffix table maps `zstd` to `.zst`: when the first negotiated
coding with a known suffix is `zstd` (all earlier codings have no entry in
`encodingExtensionMap`) and the `.zst` sibling of an indexed path is in the
map, the static responder serves that sibling with
`content-encoding: zstd`. -/
theorem staticRespond_zstd (staticMap : List (String × String))
    (publicPath : String) (extensionMap : String → Option String)
    (pathname accept basePath zPath : String)
    (l1 rest : List EncodingEntry) (w : Nat)
    (hbase : mapGet staticMap pathname = some basePath)
    (hparse : parseEncoding accept = l1 ++ ⟨"zstd", w⟩ :: rest)
    (hskip : ∀ x ∈ l1, encodingExtensionMap x.encoding = none)
    (hz : mapGet staticMap (pathname ++ ".zst") = some zPath) :
    ∃ resp, staticRespond staticMap publicPath extensionMap pathname
        (some accept) = some resp ∧
      resp.contentEncoding = "zstd" ∧ resp.filePath = zPath := by
  have hsel : selectVariant staticMap pathname basePath (parseEncoding accept) =
      ("zstd", zPath) := by
    rw [hparse, selectVariant_skipUnknown staticMap pathname basePath l1 hskip]
    have h1 : selectVariant staticMap pathname basePath (⟨"zstd", w⟩ :: rest) =
        match mapGet staticMap (pathname ++ "." ++ "zst") with
        | some foundPath => ("zstd", foundPath)
        | none => selectVariant staticMap pathname basePath rest := rfl
    have hcat : pathname ++ "." ++ "zst" = pathname ++ ".zst" := by
      rw [String.append_assoc]
      rfl
    rw [h1, hcat, hz]
  unfold staticRespond
  rw [hbase]
  refine ⟨_, rfl, ?_, ?_⟩
  · show (selectVariant staticMap pathname basePath (parseEncoding accept)).1 = "zstd"
    rw [hsel]
  · show (selectVariant staticMap pathname basePath (parseEncoding accept)).2 = zPath
    rw [hsel]

theorem staticRespond_zstd_witness :
    mapGet [("/a.js", "A"), ("/a.js.zst", "Z")] "/a.js" = some "A" ∧
    parseEncoding "zstd;q=0.5" = [] ++ ⟨"zstd", 500⟩ :: [] ∧
    ∃ resp, staticRespond [("/a.js", "A"), ("/a.js.zst", "Z")] "/p/"
        (fun _ => none) "/a.js" (some "zstd;q=0.5") = some resp ∧
      resp.contentEncoding = "zstd" ∧ resp.filePath = "Z" :=
  ⟨by decide, by decide,
    staticRespond_zstd [("/a.js", "A"), ("/a.js.zst", "Z")] "/p/" (fun _ => none)
      "/a.js" "zstd;q=0.5" "A" "Z" [] [] 500 (by decide) (by decide)
      (by simp) (by decide)⟩
